import Mathlib

/-!
Shallow embedding of the consolidation planner of `meowcoin-groomer.py`:
aggregation of UTXOs by owning script, selection of the "most over-used"
script, the eligibility gate, dust-script expansion, input gathering, and
the payout-splitting loop.  Exact decimal arithmetic is embedded as `ℚ`;
the external wallet's `getnewaddress` is determinized as a stream
`newaddr : ℕ → A` of addresses, and the `while` loop of the payout phase
is given explicit fuel (the driver's termination is settled separately).
-/

namespace MeowGroomer

/-- A UTXO as returned by `listunspent`, restricted to the fields the script reads. -/
structure Coin where
  txid : String
  vout : ℕ
  scriptPubKey : String
  amount : ℚ
  confirmations : ℕ
deriving DecidableEq, Repr

/-- The per-script aggregate tuple stored in the `scripts` dict:
`(smallCount, totalAmount, third)` where `third` is whatever the code puts
in index 2 (see `updateAgg`). -/
abbrev Agg := ℕ × ℚ × ℕ

/-- The qualification test of line 62: `amount < max_amt_input and
amount >= 0.01 and confirmations > 100`. -/
def qualifies (maxin : ℚ) (c : Coin) : Bool :=
  decide (c.amount < maxin) && decide ((1 : ℚ)/100 ≤ c.amount) &&
    decide (100 < c.confirmations)

/-- One step of the aggregation loop (lines 62–65).  Note that in the source
both branches write `scripts[script][0] + 1` — the old *first* component plus
one — into the *third* slot. -/
def updateAgg (maxin : ℚ) (c : Coin) (a : Agg) : Agg :=
  if qualifies maxin c then (a.1 + 1, a.2.1 + c.amount, a.1 + 1)
  else (a.1, a.2.1 + c.amount, a.1 + 1)

/-- Association-list lookup, the model of Python dict indexing. -/
def assocGet {B : Type} (k : String) : List (String × B) → Option B
  | [] => none
  | (k', v) :: rest => if k' = k then some v else assocGet k rest

/-- Replace the value stored under key `k` by `f` of it (no-op when absent). -/
def updateAssoc {B : Type} (k : String) (f : B → B) :
    List (String × B) → List (String × B)
  | [] => []
  | (k', v) :: rest =>
    if k' = k then (k', f v) :: rest else (k', v) :: updateAssoc k f rest

/-- The aggregation loop over `coins` (lines 57–65), carried out on an
insertion-ordered association list standing for the `scripts` dict. -/
def buildScriptsGo (maxin : ℚ) : List Coin → List (String × Agg) → List (String × Agg)
  | [], m => m
  | c :: cs, m =>
    let m1 := if (assocGet c.scriptPubKey m).isSome then m
              else m ++ [(c.scriptPubKey, ((0, 0, 0) : Agg))]
    buildScriptsGo maxin cs (updateAssoc c.scriptPubKey (updateAgg maxin c) m1)

/-- `scripts` after the aggregation loop, starting from the empty dict. -/
def buildScripts (maxin : ℚ) (coins : List Coin) : List (String × Agg) :=
  buildScriptsGo maxin coins []

/-- Python `>` on the aggregate tuples: lexicographic comparison of
`(ℕ, ℚ, ℕ)` as used by `max(..., key=itemgetter(1))`. -/
def aggGt (a b : Agg) : Bool :=
  decide (b.1 < a.1) ||
    (decide (a.1 = b.1) && (decide (b.2.1 < a.2.1) ||
      (decide (a.2.1 = b.2.1) && decide (b.2.2 < a.2.2))))

/-- `max(scripts.items(), key=operator.itemgetter(1))` (line 72): the first
item whose value tuple is maximal, `none` on the empty dict. -/
def mostOverused : List (String × Agg) → Option (String × Agg)
  | [] => none
  | x :: xs => some (xs.foldl (fun best y => if aggGt y.2 best.2 then y else best) x)

/-- Membership in the `usescripts` set (lines 79–84): the selected script
plus every script whose total amount is below `0.00010000`. -/
def inUse (scripts : List (String × Agg)) (best : String) (s : String) : Bool :=
  decide (s = best) ||
    scripts.any (fun p => decide (p.1 = s) && decide (p.2.2.1 < (1 : ℚ)/10000))

/-- The input reference appended to `txouts` (lines 93–96). -/
structure TxRef where
  txid : String
  vout : ℕ
deriving DecidableEq, Repr

def Coin.toRef (c : Coin) : TxRef := ⟨c.txid, c.vout⟩

/-- The input-gathering loop (lines 86–96): scan `coins` in fetch order,
stop as soon as `max_num_tx` inputs are collected, include coins whose
script is in the selected set, accumulating the amount. -/
def gatherGo (maxN : ℕ) (mem : String → Bool) :
    List Coin → ℚ → List TxRef → ℚ × List TxRef
  | [], amt, txouts => (amt, txouts)
  | c :: cs, amt, txouts =>
    if maxN ≤ txouts.length then (amt, txouts)
    else if mem c.scriptPubKey then
      gatherGo maxN mem cs (amt + c.amount) (txouts ++ [c.toRef])
    else gatherGo maxN mem cs amt txouts

/-- `if addr not in out: out[addr] = 0` followed by `out[addr] += amount`
(lines 111–113). -/
def upsertAdd {A : Type} [DecidableEq A] (k : A) (v : ℚ) :
    List (A × ℚ) → List (A × ℚ)
  | [] => [(k, v)]
  | (k', v') :: rest =>
    if k' = k then (k', v' + v) :: rest else (k', v') :: upsertAdd k v rest

/-- `sum(out.values())`. -/
def sumValues {A : Type} (m : List (A × ℚ)) : ℚ := (m.map Prod.snd).sum

/-- The payout loop (lines 105–114), with explicit fuel; `none` means the
fuel ran out before `na` dropped to zero or below.  Each iteration calls
`getnewaddress`, modelled by the stream `newaddr` indexed by call count. -/
def payoutLoop {A : Type} [DecidableEq A] (newaddr : ℕ → A) (maxout : ℚ) :
    ℕ → ℚ → ℕ → List (A × ℚ) → Option (List (A × ℚ) × ℚ)
  | 0, na, _, out => if 0 < na then none else some (out, na)
  | fuel + 1, na, i, out =>
    if 0 < na then
      let amount := if na - min maxout na < 10 then na else min maxout na
      let out2 := if 0 < amount then upsertAdd (newaddr i) amount out else out
      payoutLoop newaddr maxout fuel (na - amount) (i + 1) out2
    else some (out, na)

/-- The sequence of values taken by `na` at the head of each iteration of the
payout loop (a ghost trace of `payoutLoop`, which does not depend on the
addresses). -/
def payoutTrace (maxout : ℚ) : ℕ → ℚ → List ℚ
  | 0, na => [na]
  | fuel + 1, na =>
    if 0 < na then
      let amount := if na - min maxout na < 10 then na else min maxout na
      na :: payoutTrace maxout fuel (na - amount)
    else [na]

/-- Result of one driver iteration: the wallet is declared clean (the script
exits), or a transaction plan `(txouts, out)` is handed to
`createrawtransaction`. -/
inductive PlanResult (A : Type) where
  | clean : PlanResult A
  | tx : List TxRef → List (A × ℚ) → PlanResult A
deriving DecidableEq, Repr

/-- One full planner iteration (lines 57–120 up to the plan handed to
`createrawtransaction`): aggregate, select, gate, expand, gather, split. -/
def planOnce {A : Type} [DecidableEq A] (maxin : ℚ) (maxN : ℕ) (maxout fee : ℚ)
    (newaddr : ℕ → A) (fuel : ℕ) (coins : List Coin) : Option (PlanResult A) :=
  let scripts := buildScripts maxin coins
  match mostOverused scripts with
  | none => some PlanResult.clean
  | some (best, agg) =>
    if agg.2.2 < 3 ∨ agg.2.1 < (1 : ℚ)/100 then some PlanResult.clean
    else
      let p := gatherGo maxN (inUse scripts best) coins 0 []
      match payoutLoop newaddr maxout fuel (p.1 - fee) 0 [] with
      | none => none
      | some (out, _) => some (PlanResult.tx p.2 out)

/-- Rerun of the aggregation fold for a single script from the zero tuple. -/
def aggFold (maxin : ℚ) (a : Agg) (cs : List Coin) : Agg :=
  cs.foldl (fun a c => updateAgg maxin c a) a

/-- The aggregate tuple as the specification words it (Step 1):
`smallCount` = number of the script's UTXOs qualifying under `qualifies`,
`totalAmount` = sum of all the script's UTXO amounts, `totalCount` = number
of the script's UTXOs.  Kept separate from `updateAgg`/`buildScripts` (which
follow the source) so the two can be compared. -/
def specAggregate (maxin : ℚ) (coins : List Coin) (s : String) : Agg :=
  let cs := coins.filter (fun c => decide (c.scriptPubKey = s))
  ((cs.filter (fun c => qualifies maxin c)).length,
   (cs.map Coin.amount).sum, cs.length)

/-- Modelled from the spec: the repository's second script variant (not under
`src/`) adds an optional fixed destination address and an address-reuse flag;
this is its Step 6 destination choice — the fixed address when supplied,
else the previously issued address when reuse is enabled and an output
already exists, else a freshly issued address.  Returns the destination, the
next fresh-address index, and the issued-address record. -/
def chooseDest {A : Type} (newaddr : ℕ → A) (fixedAddr : Option A) (reuse : Bool)
    (i : ℕ) (issued : Option A) (outEmpty : Bool) : A × ℕ × Option A :=
  match fixedAddr with
  | some a => (a, i, issued)
  | none =>
    match (if reuse && !outEmpty then issued else none) with
    | some prev => (prev, i, issued)
    | none => (newaddr i, i + 1, some (newaddr i))

/-- Modelled from the spec: the Step 6 payout loop of the second script
variant, identical to `payoutLoop` except that destinations come from
`chooseDest` and fresh addresses are only issued when needed. -/
def payoutLoopB {A : Type} [DecidableEq A] (newaddr : ℕ → A)
    (fixedAddr : Option A) (reuse : Bool) (maxout : ℚ) :
    ℕ → ℚ → ℕ → Option A → List (A × ℚ) → Option (List (A × ℚ) × ℚ)
  | 0, na, _, _, out => if 0 < na then none else some (out, na)
  | fuel + 1, na, i, issued, out =>
    if 0 < na then
      let amount := if na - min maxout na < 10 then na else min maxout na
      let d := chooseDest newaddr fixedAddr reuse i issued out.isEmpty
      let out2 := if 0 < amount then upsertAdd d.1 amount out else out
      payoutLoopB newaddr fixedAddr reuse maxout fuel (na - amount) d.2.1 d.2.2 out2
    else some (out, na)

/-! Concrete inputs used by counterexamples and witnesses. -/

/-- Three qualifying coins of 0.02 MEWC on one script: passes the eligibility
gate, yet the gathered amount 0.06 is below the default fee 1. -/
def coinsSmallFee : List Coin :=
  [⟨"t1", 0, "S", 1/50, 200⟩, ⟨"t2", 0, "S", 1/50, 200⟩, ⟨"t3", 0, "S", 1/50, 200⟩]

/-- Three unqualifying coins (unconfirmed) of 1 MEWC on one script. -/
def coinsThreeLarge : List Coin :=
  [⟨"u1", 0, "S", 1, 1⟩, ⟨"u2", 0, "S", 1, 1⟩, ⟨"u3", 0, "S", 1, 1⟩]

/-- Script "A": one qualifying and two unqualifying coins, total 1, count 3;
script "B": one qualifying and one unqualifying coin, total 1, count 2. -/
def coinsTwoScripts : List Coin :=
  [⟨"a1", 0, "A", 9/10, 1⟩, ⟨"a2", 0, "A", 1/20, 1⟩, ⟨"a3", 0, "A", 1/20, 200⟩,
   ⟨"b1", 0, "B", 1/2, 200⟩, ⟨"b2", 0, "B", 1/2, 1⟩]

/-- The specification §8 example: five qualifying payments of 1 MEWC each. -/
def coinsFive : List Coin :=
  [⟨"v1", 0, "S", 1, 200⟩, ⟨"v2", 0, "S", 1, 200⟩, ⟨"v3", 0, "S", 1, 200⟩,
   ⟨"v4", 0, "S", 1, 200⟩, ⟨"v5", 0, "S", 1, 200⟩]

/-- Two qualifying coins on one script: fails the gate on the count. -/
def coinsTwo : List Coin :=
  [⟨"w1", 0, "S", 1, 200⟩, ⟨"w2", 0, "S", 1, 200⟩]

/-- A single pure-dust coin. -/
def coinsDust : List Coin := [⟨"d1", 0, "D", 1/20000, 1⟩]

/-! ### Helper lemmas about the payout loop -/

lemma sumValues_nil {A : Type} : sumValues ([] : List (A × ℚ)) = 0 := rfl

lemma sumValues_cons {A : Type} (p : A × ℚ) (m : List (A × ℚ)) :
    sumValues (p :: m) = p.2 + sumValues m := by
  simp [sumValues]

lemma sumValues_upsertAdd {A : Type} [DecidableEq A] (k : A) (v : ℚ)
    (m : List (A × ℚ)) : sumValues (upsertAdd k v m) = sumValues m + v := by
  induction m with
  | nil => simp [upsertAdd, sumValues]
  | cons p rest ih =>
    obtain ⟨k', v'⟩ := p
    by_cases h : k' = k
    · simp only [upsertAdd, if_pos h, sumValues_cons]
      ring
    · simp only [upsertAdd, if_neg h, sumValues_cons, ih]
      ring

lemma payout_nonpos {A : Type} [DecidableEq A] (newaddr : ℕ → A) (maxout : ℚ)
    (fuel : ℕ) (na : ℚ) (i : ℕ) (out : List (A × ℚ)) (h : ¬ 0 < na) :
    payoutLoop newaddr maxout fuel na i out = some (out, na) := by
  cases fuel <;> simp [payoutLoop, h]

lemma payout_succ {A : Type} [DecidableEq A] (newaddr : ℕ → A) (maxout : ℚ)
    (fuel : ℕ) (na : ℚ) (i : ℕ) (out : List (A × ℚ)) :
    payoutLoop newaddr maxout (fuel + 1) na i out =
      if 0 < na then
        payoutLoop newaddr maxout fuel
          (na - (if na - min maxout na < 10 then na else min maxout na)) (i + 1)
          (if 0 < (if na - min maxout na < 10 then na else min maxout na) then
            upsertAdd (newaddr i)
              (if na - min maxout na < 10 then na else min maxout na) out
          else out)
      else some (out, na) := rfl

lemma payout_none_of_nonpos {A : Type} [DecidableEq A] (newaddr : ℕ → A)
    (maxout : ℚ) : ∀ (fuel : ℕ) (na : ℚ) (i : ℕ) (out : List (A × ℚ)),
    0 < na → maxout ≤ 0 → 10 ≤ na - maxout →
    payoutLoop newaddr maxout fuel na i out = none := by
  intro fuel
  induction fuel with
  | zero => intro na i out h1 _ _; simp [payoutLoop, h1]
  | succ fuel ih =>
    intro na i out h1 h2 h3
    have hmin : min maxout na = maxout := min_eq_left (by linarith)
    rw [payout_succ, if_pos h1, hmin, if_neg (show ¬ (na - maxout < 10) by linarith),
      if_neg (show ¬ (0 : ℚ) < maxout by linarith)]
    exact ih (na - maxout) (i + 1) out (by linarith) h2 (by linarith)

lemma payout_sum {A : Type} [DecidableEq A] (newaddr : ℕ → A) (maxout : ℚ) :
    ∀ (fuel : ℕ) (na : ℚ) (i : ℕ) (out out' : List (A × ℚ)) (r : ℚ),
    payoutLoop newaddr maxout fuel na i out = some (out', r) →
    sumValues out' = sumValues out + na - r := by
  intro fuel
  induction fuel with
  | zero =>
    intro na i out out' r h
    by_cases h1 : 0 < na
    · simp [payoutLoop, h1] at h
    · simp [payoutLoop, h1] at h
      rw [← h.1, ← h.2]; ring
  | succ fuel ih =>
    intro na i out out' r h
    by_cases h1 : 0 < na
    · simp only [payoutLoop, if_pos h1] at h
      by_cases hforce : na - min maxout na < 10
      · rw [if_pos hforce, if_pos h1] at h
        have := ih _ _ _ _ _ h
        rw [this, sumValues_upsertAdd]; ring
      · rw [if_neg hforce] at h
        by_cases hmpos : 0 < min maxout na
        · rw [if_pos hmpos] at h
          have := ih _ _ _ _ _ h
          rw [this, sumValues_upsertAdd]; ring
        · have hm0 : maxout ≤ 0 := by
            rcases le_total maxout na with hle | hle
            · rw [min_eq_left hle] at hmpos; linarith [not_lt.mp hmpos]
            · rw [min_eq_right hle] at hmpos; exact absurd h1 hmpos
          have hmin : min maxout na = maxout := min_eq_left (by linarith)
          rw [if_neg hmpos, hmin] at h
          have h10 : 10 ≤ na - maxout := by
            rw [hmin] at hforce; linarith [not_lt.mp hforce]
          rw [payout_none_of_nonpos newaddr maxout fuel (na - maxout) (i + 1) out
            (by linarith) hm0 (by linarith)] at h
          exact absurd h (by simp)
    · simp [payoutLoop, h1] at h
      rw [← h.1, ← h.2]; ring

lemma payout_exit {A : Type} [DecidableEq A] (newaddr : ℕ → A) (maxout : ℚ) :
    ∀ (fuel : ℕ) (na : ℚ) (i : ℕ) (out out' : List (A × ℚ)) (r : ℚ),
    payoutLoop newaddr maxout fuel na i out = some (out', r) → 0 ≤ na → r = 0 := by
  intro fuel
  induction fuel with
  | zero =>
    intro na i out out' r h h0
    by_cases h1 : 0 < na
    · simp [payoutLoop, h1] at h
    · simp [payoutLoop, h1] at h
      rw [← h.2]; linarith [not_lt.mp h1]
  | succ fuel ih =>
    intro na i out out' r h h0
    by_cases h1 : 0 < na
    · simp only [payoutLoop, if_pos h1] at h
      by_cases hforce : na - min maxout na < 10
      · rw [if_pos hforce, if_pos h1] at h
        exact ih _ _ _ _ _ h (by linarith)
      · rw [if_neg hforce] at h
        have h10 : 10 ≤ na - min maxout na := not_lt.mp hforce
        by_cases hmpos : 0 < min maxout na
        · rw [if_pos hmpos] at h
          exact ih _ _ _ _ _ h (by linarith)
        · rw [if_neg hmpos] at h
          exact ih _ _ _ _ _ h (by linarith)
    · simp [payoutLoop, h1] at h
      rw [← h.2]; linarith [not_lt.mp h1]

lemma payout_reaches_zero {A : Type} [DecidableEq A] (newaddr : ℕ → A)
    (maxout : ℚ) (hm : 0 < maxout) :
    ∀ (k : ℕ) (na : ℚ), 0 ≤ na → na ≤ (k : ℚ) * maxout →
    ∀ (i : ℕ) (out : List (A × ℚ)),
    ∃ out', payoutLoop newaddr maxout (k + 1) na i out = some (out', 0) := by
  intro k
  induction k with
  | zero =>
    intro na h0 hk i out
    have hna : na = 0 := le_antisymm (by simpa using hk) h0
    subst hna
    exact ⟨out, payout_nonpos _ _ _ _ _ _ (by norm_num)⟩
  | succ k ih =>
    intro na h0 hk i out
    by_cases h1 : 0 < na
    · by_cases hforce : na - min maxout na < 10
      · refine ⟨upsertAdd (newaddr i) na out, ?_⟩
        rw [payout_succ, if_pos h1, if_pos hforce, if_pos h1, sub_self]
        exact payout_nonpos newaddr maxout (k + 1) 0 (i + 1)
          (upsertAdd (newaddr i) na out) (by norm_num)
      · have h10 : 10 ≤ na - min maxout na := not_lt.mp hforce
        have hle : maxout ≤ na := by
          rcases le_total maxout na with hle | hle
          · exact hle
          · rw [min_eq_right hle] at h10; linarith
        have hmin : min maxout na = maxout := min_eq_left hle
        rw [hmin] at h10
        have hk2 : na - maxout ≤ (k : ℚ) * maxout := by
          push_cast at hk ⊢
          linarith
        obtain ⟨out', hrec⟩ := ih (na - maxout) (by linarith) hk2 (i + 1)
          (upsertAdd (newaddr i) maxout out)
        refine ⟨out', ?_⟩
        rw [payout_succ, if_pos h1, hmin,
          if_neg (show ¬ (na - maxout < 10) by linarith), if_pos hm]
        exact hrec
    · refine ⟨out, ?_⟩
      have hna : na = 0 := le_antisymm (not_lt.mp h1) h0
      subst hna
      exact payout_nonpos newaddr maxout (k + 1 + 1) 0 i out (by norm_num)

lemma payout_terminates {A : Type} [DecidableEq A] (newaddr : ℕ → A)
    (maxout na : ℚ) (hm : 0 < maxout) (h0 : 0 ≤ na) (i : ℕ)
    (out : List (A × ℚ)) :
    ∃ fuel out', payoutLoop newaddr maxout fuel na i out = some (out', 0) := by
  obtain ⟨k, hk⟩ := exists_nat_ge (na / maxout)
  have hbound : na ≤ (k : ℚ) * maxout := by
    rw [div_le_iff₀ hm] at hk; linarith
  obtain ⟨out', h⟩ := payout_reaches_zero newaddr maxout hm k na h0 hbound i out
  exact ⟨k + 1, out', h⟩

lemma payoutTrace_nonneg (maxout : ℚ) :
    ∀ (fuel : ℕ) (na : ℚ), 0 ≤ na → ∀ v ∈ payoutTrace maxout fuel na, 0 ≤ v := by
  intro fuel
  induction fuel with
  | zero =>
    intro na h0 v hv
    simp [payoutTrace] at hv
    rw [hv]; exact h0
  | succ fuel ih =>
    intro na h0 v hv
    by_cases h1 : 0 < na
    · simp only [payoutTrace, if_pos h1, List.mem_cons] at hv
      rcases hv with hv | hv
      · rw [hv]; exact h0
      · by_cases hforce : na - min maxout na < 10
        · rw [if_pos hforce, sub_self] at hv
          exact ih 0 le_rfl v hv
        · have h10 : 10 ≤ na - min maxout na := not_lt.mp hforce
          rw [if_neg hforce] at hv
          exact ih _ (by linarith) v hv
    · simp [payoutTrace, h1] at hv
      rw [hv]; exact h0

/-! ### Helper lemmas about aggregation and selection -/

lemma updateAgg_third (maxin : ℚ) (c : Coin) (a : Agg) :
    (updateAgg maxin c a).2.2 = a.1 + 1 := by
  unfold updateAgg; split <;> rfl

lemma updateAgg_first_le (maxin : ℚ) (c : Coin) (a : Agg) :
    (updateAgg maxin c a).1 ≤ a.1 + 1 := by
  unfold updateAgg; split <;> simp

lemma updateAgg_second (maxin : ℚ) (c : Coin) (a : Agg) :
    (updateAgg maxin c a).2.1 = a.2.1 + c.amount := by
  unfold updateAgg; split <;> rfl

lemma aggFold_cons (maxin : ℚ) (a : Agg) (c : Coin) (cs : List Coin) :
    aggFold maxin a (c :: cs) = aggFold maxin (updateAgg maxin c a) cs := rfl

lemma aggFold_first_le (maxin : ℚ) :
    ∀ (cs : List Coin) (a : Agg), (aggFold maxin a cs).1 ≤ a.1 + cs.length := by
  intro cs
  induction cs with
  | nil => intro a; simp [aggFold]
  | cons c cs ih =>
    intro a
    rw [aggFold_cons]
    calc (aggFold maxin (updateAgg maxin c a) cs).1
        ≤ (updateAgg maxin c a).1 + cs.length := ih _
      _ ≤ a.1 + (c :: cs).length := by
          have := updateAgg_first_le maxin c a
          simp only [List.length_cons]
          omega

lemma aggFold_third_le (maxin : ℚ) :
    ∀ (cs : List Coin) (a : Agg),
    (aggFold maxin a cs).2.2 ≤ max a.2.2 (a.1 + cs.length) := by
  intro cs
  induction cs with
  | nil => intro a; simp [aggFold]
  | cons c cs ih =>
    intro a
    rw [aggFold_cons]
    calc (aggFold maxin (updateAgg maxin c a) cs).2.2
        ≤ max (updateAgg maxin c a).2.2 ((updateAgg maxin c a).1 + cs.length) := ih _
      _ ≤ a.1 + 1 + cs.length := by
          apply max_le
          · rw [updateAgg_third]; omega
          · have := updateAgg_first_le maxin c a; omega
      _ ≤ max a.2.2 (a.1 + (c :: cs).length) := by
          simp only [List.length_cons]
          exact le_trans (by omega) (le_max_right _ _)

lemma aggFold_second (maxin : ℚ) :
    ∀ (cs : List Coin) (a : Agg),
    (aggFold maxin a cs).2.1 = a.2.1 + (cs.map Coin.amount).sum := by
  intro cs
  induction cs with
  | nil => intro a; simp [aggFold]
  | cons c cs ih =>
    intro a
    rw [aggFold_cons, ih, updateAgg_second]
    simp only [List.map_cons, List.sum_cons]
    ring

lemma assocGet_updateAssoc {B : Type} (s k : String) (f : B → B)
    (m : List (String × B)) :
    assocGet s (updateAssoc k f m) =
      if k = s then (assocGet s m).map f else assocGet s m := by
  induction m with
  | nil => simp [assocGet, updateAssoc]
  | cons p rest ih =>
    obtain ⟨k', v⟩ := p
    by_cases h1 : k' = k <;> by_cases h2 : k' = s
    · have hks : k = s := h1.symm.trans h2
      simp [updateAssoc, assocGet, h1, h2, hks]
    · have hks : ¬ k = s := fun h => h2 (h1.trans h)
      simp [updateAssoc, assocGet, h1, h2, hks]
    · have hks : ¬ k = s := fun h => h1 (h2.trans h.symm)
      have hsk : ¬ s = k := fun h => hks h.symm
      simp [updateAssoc, assocGet, h1, h2, hks, hsk]
    · simp [updateAssoc, assocGet, h1, h2, ih]

lemma assocGet_append {B : Type} (s k : String) (v : B) (m : List (String × B)) :
    assocGet s (m ++ [(k, v)]) =
      match assocGet s m with
      | some w => some w
      | none => if k = s then some v else none := by
  induction m with
  | nil => simp [assocGet]
  | cons p rest ih =>
    obtain ⟨k', w⟩ := p
    by_cases h : k' = s
    · simp [assocGet, h]
    · simp only [List.cons_append, assocGet, if_neg h]
      exact ih

lemma assocGet_eq_none {B : Type} (k : String) (m : List (String × B)) :
    assocGet k m = none ↔ k ∉ m.map Prod.fst := by
  induction m with
  | nil => simp [assocGet]
  | cons p rest ih =>
    obtain ⟨k', v⟩ := p
    by_cases h : k' = k
    · simp [assocGet, h]
    · have hne : ¬ k = k' := fun hh => h hh.symm
      simp [assocGet, h, ih, hne]

lemma assocGet_of_mem_nodup {B : Type} (s : String) (a : B) :
    ∀ (m : List (String × B)), (s, a) ∈ m → (m.map Prod.fst).Nodup →
    assocGet s m = some a := by
  intro m
  induction m with
  | nil => intro h; simp at h
  | cons p rest ih =>
    intro hmem hnd
    obtain ⟨k', v⟩ := p
    simp only [List.map_cons, List.nodup_cons] at hnd
    rcases List.mem_cons.mp hmem with h | h
    · injection h with h1 h2
      subst h1
      subst h2
      simp [assocGet]
    · have hne : k' ≠ s := by
        intro he
        subst he
        exact hnd.1 (by simpa using List.mem_map_of_mem Prod.fst h)
      simp only [assocGet, if_neg hne]
      exact ih h hnd.2

lemma updateAssoc_keys {B : Type} (k : String) (f : B → B)
    (m : List (String × B)) :
    (updateAssoc k f m).map Prod.fst = m.map Prod.fst := by
  induction m with
  | nil => rfl
  | cons p rest ih =>
    obtain ⟨k', v⟩ := p
    by_cases h : k' = k <;> simp [updateAssoc, h, ih]

lemma buildScriptsGo_keys_nodup (maxin : ℚ) :
    ∀ (cs : List Coin) (m : List (String × Agg)),
    (m.map Prod.fst).Nodup → ((buildScriptsGo maxin cs m).map Prod.fst).Nodup := by
  intro cs
  induction cs with
  | nil => intro m h; exact h
  | cons c cs ih =>
    intro m h
    simp only [buildScriptsGo]
    apply ih
    rw [updateAssoc_keys]
    by_cases hs : (assocGet c.scriptPubKey m).isSome
    · rw [if_pos hs]; exact h
    · rw [if_neg hs]
      have : c.scriptPubKey ∉ m.map Prod.fst := by
        rw [← assocGet_eq_none]
        exact Option.not_isSome_iff_eq_none.mp hs
      simp [List.nodup_append, h, this]

lemma buildScriptsGo_assocGet (maxin : ℚ) :
    ∀ (cs : List Coin) (m : List (String × Agg)) (s : String),
    assocGet s (buildScriptsGo maxin cs m) =
      match assocGet s m with
      | some a =>
        some (aggFold maxin a (cs.filter (fun c => decide (c.scriptPubKey = s))))
      | none =>
        if cs.any (fun c => decide (c.scriptPubKey = s)) then
          some (aggFold maxin (0, 0, 0)
            (cs.filter (fun c => decide (c.scriptPubKey = s))))
        else none := by
  intro cs
  induction cs with
  | nil =>
    intro m s
    cases h : assocGet s m <;> simp [buildScriptsGo, aggFold, h]
  | cons c cs ih =>
    intro m s
    simp only [buildScriptsGo]
    rw [ih]
    have hm2 : assocGet s
        (updateAssoc c.scriptPubKey (updateAgg maxin c)
          (if (assocGet c.scriptPubKey m).isSome then m
           else m ++ [(c.scriptPubKey, ((0, 0, 0) : Agg))])) =
        if c.scriptPubKey = s then
          some (updateAgg maxin c ((assocGet s m).getD (0, 0, 0)))
        else assocGet s m := by
      rw [assocGet_updateAssoc]
      by_cases hks : c.scriptPubKey = s
      · rw [if_pos hks, if_pos hks]
        by_cases hsome : (assocGet c.scriptPubKey m).isSome
        · rw [if_pos hsome]
          rw [hks] at hsome
          obtain ⟨a, ha⟩ := Option.isSome_iff_exists.mp hsome
          rw [ha]
          simp
        · rw [if_neg hsome, assocGet_append]
          rw [hks] at hsome
          have hnone : assocGet s m = none := Option.not_isSome_iff_eq_none.mp hsome
          rw [hnone]
          simp [hks]
      · rw [if_neg hks, if_neg hks]
        by_cases hsome : (assocGet c.scriptPubKey m).isSome
        · rw [if_pos hsome]
        · rw [if_neg hsome, assocGet_append]
          cases h : assocGet s m <;> simp [h, hks]
    rw [hm2]
    by_cases hks : c.scriptPubKey = s
    · rw [if_pos hks]
      have hfil : (c :: cs).filter (fun x => decide (x.scriptPubKey = s)) =
          c :: cs.filter (fun x => decide (x.scriptPubKey = s)) := by
        simp [List.filter_cons, hks]
      have hany : ((c :: cs).any (fun x => decide (x.scriptPubKey = s))) = true := by
        simp [hks]
      simp only [hfil, hany, if_true, aggFold_cons]
      cases h : assocGet s m with
      | none => simp
      | some a => simp
    · rw [if_neg hks]
      have hfil : (c :: cs).filter (fun x => decide (x.scriptPubKey = s)) =
          cs.filter (fun x => decide (x.scriptPubKey = s)) := by
        simp [List.filter_cons, hks]
      have hany : ((c :: cs).any (fun x => decide (x.scriptPubKey = s))) =
          cs.any (fun x => decide (x.scriptPubKey = s)) := by
        simp [hks]
      simp only [hfil, hany]

lemma foldl_best_mem :
    ∀ (xs : List (String × Agg)) (x : String × Agg),
    xs.foldl (fun best y => if aggGt y.2 best.2 then y else best) x ∈ x :: xs := by
  intro xs
  induction xs with
  | nil => intro x; simp
  | cons y ys ih =>
    intro x
    simp only [List.foldl_cons]
    rcases List.mem_cons.mp (ih (if aggGt y.2 x.2 then y else x)) with h | h
    · rw [h]
      by_cases hgt : aggGt y.2 x.2 = true
      · simp [hgt]
      · simp [hgt]
    · exact List.mem_cons_of_mem _ (List.mem_cons_of_mem _ h)

lemma mostOverused_mem (l : List (String × Agg)) (x : String × Agg)
    (h : mostOverused l = some x) : x ∈ l := by
  cases l with
  | nil => simp [mostOverused] at h
  | cons y ys =>
    simp only [mostOverused, Option.some.injEq] at h
    rw [← h]
    exact foldl_best_mem ys y

/-! ### Helper lemma about input gathering -/

lemma gatherGo_spec (maxN : ℕ) (mem : String → Bool) :
    ∀ (cs : List Coin) (amt : ℚ) (acc : List TxRef),
    gatherGo maxN mem cs amt acc =
      (amt + (((cs.filter (fun c => mem c.scriptPubKey)).take
          (maxN - acc.length)).map Coin.amount).sum,
       acc ++ ((cs.filter (fun c => mem c.scriptPubKey)).take
          (maxN - acc.length)).map Coin.toRef) := by
  intro cs
  induction cs with
  | nil => intro amt acc; simp [gatherGo]
  | cons c cs ih =>
    intro amt acc
    by_cases hstop : maxN ≤ acc.length
    · have h0 : maxN - acc.length = 0 := by omega
      simp [gatherGo, hstop, h0]
    · by_cases hmem : mem c.scriptPubKey
      · have hfil : (c :: cs).filter (fun x => mem x.scriptPubKey) =
            c :: cs.filter (fun x => mem x.scriptPubKey) := by
          simp [List.filter_cons, hmem]
        have htake : maxN - acc.length = (maxN - (acc.length + 1)) + 1 := by omega
        simp only [gatherGo, if_neg hstop, if_pos hmem]
        rw [ih, hfil, htake]
        simp only [List.take_succ_cons, List.map_cons, List.sum_cons,
          List.length_append, List.length_cons, List.length_nil, Prod.mk.injEq]
        constructor
        · ring
        · simp [List.append_assoc]
      · have hfil : (c :: cs).filter (fun x => mem x.scriptPubKey) =
            cs.filter (fun x => mem x.scriptPubKey) := by
          simp [List.filter_cons, hmem]
        simp only [gatherGo, if_neg hstop, if_neg hmem]
        rw [ih, hfil]

/-! ### Helper lemmas about output maps and the output cap -/

lemma upsertAdd_of_fresh {A : Type} [DecidableEq A] (k : A) (v : ℚ) :
    ∀ (m : List (A × ℚ)), (∀ p ∈ m, p.1 ≠ k) →
    upsertAdd k v m = m ++ [(k, v)] := by
  intro m
  induction m with
  | nil => intro _; rfl
  | cons p rest ih =>
    intro h
    obtain ⟨k', v'⟩ := p
    have hne : k' ≠ k := h (k', v') (by simp)
    simp only [upsertAdd, if_neg hne, List.cons_append, List.cons.injEq, true_and]
    exact ih (fun q hq => h q (by simp [hq]))

lemma mem_fst_upsertAdd {A : Type} [DecidableEq A] (k : A) (v : ℚ) :
    ∀ (m : List (A × ℚ)) (p : A × ℚ), p ∈ upsertAdd k v m →
    p.1 = k ∨ p.1 ∈ m.map Prod.fst := by
  intro m
  induction m with
  | nil =>
    intro p h
    simp [upsertAdd] at h
    left; rw [h]
  | cons q rest ih =>
    intro p h
    obtain ⟨k', v'⟩ := q
    by_cases hk : k' = k
    · simp only [upsertAdd, if_pos hk, List.mem_cons] at h
      rcases h with h | h
      · left; rw [h, hk]
      · right; simp [List.mem_map_of_mem Prod.fst h]
    · simp only [upsertAdd, if_neg hk, List.mem_cons] at h
      rcases h with h | h
      · right; rw [h]; simp
      · rcases ih p h with h2 | h2
        · left; exact h2
        · right; simp [h2]

lemma upsertAdd_ne_nil {A : Type} [DecidableEq A] (k : A) (v : ℚ)
    (m : List (A × ℚ)) : upsertAdd k v m ≠ [] := by
  cases m with
  | nil => simp [upsertAdd]
  | cons p rest =>
    obtain ⟨k', v'⟩ := p
    by_cases h : k' = k <;> simp [upsertAdd, h]

lemma payout_caps {A : Type} [DecidableEq A] (newaddr : ℕ → A) (maxout : ℚ)
    (hinj : Function.Injective newaddr) :
    ∀ (fuel : ℕ) (na : ℚ) (i : ℕ) (out out' : List (A × ℚ)) (r : ℚ),
    (∀ k ∈ out.map Prod.fst, ∃ j, j < i ∧ newaddr j = k) →
    (∀ p ∈ out, p.2 ≤ maxout) →
    payoutLoop newaddr maxout fuel na i out = some (out', r) →
    (∀ p ∈ out'.dropLast, p.2 ≤ maxout) ∧
    (∀ p ∈ out', maxout < p.2 → out'.getLast? = some p ∧ p.2 - maxout < 10) := by
  intro fuel
  induction fuel with
  | zero =>
    intro na i out out' r hkeys hbdd h
    by_cases h1 : 0 < na
    · simp [payoutLoop, h1] at h
    · simp [payoutLoop, h1] at h
      rw [← h.1]
      constructor
      · intro p hp
        exact hbdd p (List.dropLast_subset _ hp)
      · intro p hp hgt
        exact absurd (hbdd p hp) (not_le.mpr hgt)
  | succ fuel ih =>
    intro na i out out' r hkeys hbdd h
    by_cases h1 : 0 < na
    · have hfreshkey : ∀ p ∈ out, p.1 ≠ newaddr i := by
        intro p hp he
        obtain ⟨j, hj, hje⟩ := hkeys p.1 (List.mem_map_of_mem Prod.fst hp)
        exact absurd (hinj (hje.trans he)) (Nat.ne_of_lt hj)
      rw [payout_succ, if_pos h1] at h
      by_cases hforce : na - min maxout na < 10
      · rw [if_pos hforce, if_pos h1,
          upsertAdd_of_fresh (newaddr i) na out hfreshkey, sub_self,
          payout_nonpos newaddr maxout fuel 0 (i + 1) _ (by norm_num)] at h
        simp only [Option.some.injEq, Prod.mk.injEq] at h
        rw [← h.1]
        constructor
        · intro p hp
          rw [List.dropLast_concat] at hp
          exact hbdd p hp
        · intro p hp hgt
          rcases List.mem_append.mp hp with hin | hin
          · exact absurd (hbdd p hin) (not_le.mpr hgt)
          · have hpe : p = (newaddr i, na) := by simpa using hin
            constructor
            · rw [List.getLast?_concat, hpe]
            · rw [hpe]
              have hmin : min maxout na = maxout := by
                apply min_eq_left
                have : maxout < na := by rw [hpe] at hgt; exact hgt
                linarith
              rw [hmin] at hforce
              exact hforce
      · have h10 : 10 ≤ na - min maxout na := not_lt.mp hforce
        have hmin : min maxout na = maxout := by
          rcases le_total maxout na with hle | hle
          · exact min_eq_left hle
          · rw [min_eq_right hle] at h10; linarith
        rw [if_neg hforce, hmin] at h
        rw [hmin] at h10
        by_cases hm : 0 < maxout
        · rw [if_pos hm, upsertAdd_of_fresh (newaddr i) maxout out hfreshkey] at h
          apply ih (na - maxout) (i + 1) (out ++ [(newaddr i, maxout)]) out' r _ _ h
          · intro k hk
            rw [List.map_append, List.mem_append] at hk
            rcases hk with hk | hk
            · obtain ⟨j, hj, hje⟩ := hkeys k hk
              exact ⟨j, by omega, hje⟩
            · simp only [List.map_cons, List.map_nil, List.mem_singleton] at hk
              exact ⟨i, by omega, hk.symm⟩
          · intro p hp
            rcases List.mem_append.mp hp with hin | hin
            · exact hbdd p hin
            · have : p = (newaddr i, maxout) := by simpa using hin
              rw [this]
        · rw [if_neg hm] at h
          rw [payout_none_of_nonpos newaddr maxout fuel (na - maxout) (i + 1) out
            (by linarith) (not_lt.mp hm) (by linarith [not_lt.mp hm])] at h
          exact absurd h (by simp)
    · simp [payoutLoop, h1] at h
      rw [← h.1]
      constructor
      · intro p hp
        exact hbdd p (List.dropLast_subset _ hp)
      · intro p hp hgt
        exact absurd (hbdd p hp) (not_le.mpr hgt)

/-! ### Helper lemmas about the spec-modelled destination choice -/

lemma payoutB_succ {A : Type} [DecidableEq A] (newaddr : ℕ → A)
    (fixedAddr : Option A) (reuse : Bool) (maxout : ℚ) (fuel : ℕ) (na : ℚ)
    (i : ℕ) (issued : Option A) (out : List (A × ℚ)) :
    payoutLoopB newaddr fixedAddr reuse maxout (fuel + 1) na i issued out =
      if 0 < na then
        payoutLoopB newaddr fixedAddr reuse maxout fuel
          (na - (if na - min maxout na < 10 then na else min maxout na))
          (chooseDest newaddr fixedAddr reuse i issued out.isEmpty).2.1
          (chooseDest newaddr fixedAddr reuse i issued out.isEmpty).2.2
          (if 0 < (if na - min maxout na < 10 then na else min maxout na) then
            upsertAdd (chooseDest newaddr fixedAddr reuse i issued out.isEmpty).1
              (if na - min maxout na < 10 then na else min maxout na) out
          else out)
      else some (out, na) := rfl

lemma payoutB_none_of_nonpos {A : Type} [DecidableEq A] (newaddr : ℕ → A)
    (fixedAddr : Option A) (reuse : Bool) (maxout : ℚ) :
    ∀ (fuel : ℕ) (na : ℚ) (i : ℕ) (issued : Option A) (out : List (A × ℚ)),
    0 < na → maxout ≤ 0 → 10 ≤ na - maxout →
    payoutLoopB newaddr fixedAddr reuse maxout fuel na i issued out = none := by
  intro fuel
  induction fuel with
  | zero => intro na i issued out h1 _ _; simp [payoutLoopB, h1]
  | succ fuel ih =>
    intro na i issued out h1 h2 h3
    have hmin : min maxout na = maxout := min_eq_left (by linarith)
    rw [payoutB_succ, if_pos h1, hmin,
      if_neg (show ¬ (na - maxout < 10) by linarith),
      if_neg (show ¬ (0 : ℚ) < maxout by linarith)]
    exact ih (na - maxout) _ _ out (by linarith) h2 (by linarith)

lemma payoutB_amount_pos {A : Type} [DecidableEq A] (newaddr : ℕ → A)
    (fixedAddr : Option A) (reuse : Bool) (maxout : ℚ) (fuel : ℕ) (na : ℚ)
    (i : ℕ) (issued : Option A) (out : List (A × ℚ)) (res : List (A × ℚ) × ℚ)
    (h1 : 0 < na)
    (h : payoutLoopB newaddr fixedAddr reuse maxout (fuel + 1) na i issued out =
      some res) :
    0 < (if na - min maxout na < 10 then na else min maxout na) := by
  by_cases hforce : na - min maxout na < 10
  · rw [if_pos hforce]; exact h1
  · have h10 : 10 ≤ na - min maxout na := not_lt.mp hforce
    have hmin : min maxout na = maxout := by
      rcases le_total maxout na with hle | hle
      · exact min_eq_left hle
      · rw [min_eq_right hle] at h10; linarith
    rw [if_neg hforce, hmin]
    by_contra hm
    rw [hmin] at h10
    rw [payoutB_succ, if_pos h1, hmin,
      if_neg (show ¬ (na - maxout < 10) by linarith), if_neg hm,
      payoutB_none_of_nonpos newaddr fixedAddr reuse maxout fuel (na - maxout)
        _ _ out (by linarith) (not_lt.mp hm) (by linarith [not_lt.mp hm])] at h
    exact absurd h (by simp)

lemma payoutB_fixed {A : Type} [DecidableEq A] (newaddr : ℕ → A) (a : A)
    (reuse : Bool) (maxout : ℚ) :
    ∀ (fuel : ℕ) (na : ℚ) (i : ℕ) (issued : Option A) (out out' : List (A × ℚ))
    (r : ℚ), (∀ p ∈ out, p.1 = a) →
    payoutLoopB newaddr (some a) reuse maxout fuel na i issued out =
      some (out', r) →
    ∀ p ∈ out', p.1 = a := by
  intro fuel
  induction fuel with
  | zero =>
    intro na i issued out out' r hkeys h
    by_cases h1 : 0 < na
    · simp [payoutLoopB, h1] at h
    · simp [payoutLoopB, h1] at h
      rw [← h.1]; exact hkeys
  | succ fuel ih =>
    intro na i issued out out' r hkeys h
    by_cases h1 : 0 < na
    · rw [payoutB_succ, if_pos h1] at h
      have hd : chooseDest newaddr (some a) reuse i issued out.isEmpty =
          (a, i, issued) := rfl
      rw [hd] at h
      apply ih _ _ _ _ _ _ _ h
      by_cases hpos : 0 < (if na - min maxout na < 10 then na else min maxout na)
      · rw [if_pos hpos]
        intro p hp
        rcases mem_fst_upsertAdd _ _ _ p hp with h2 | h2
        · exact h2
        · obtain ⟨q, hq, hqe⟩ := List.mem_map.mp h2
          rw [← hqe]; exact hkeys q hq
      · rw [if_neg hpos]; exact hkeys
    · simp [payoutLoopB, h1] at h
      rw [← h.1]; exact hkeys

lemma payoutB_reuse {A : Type} [DecidableEq A] (newaddr : ℕ → A) (maxout : ℚ) :
    ∀ (fuel : ℕ) (na : ℚ) (i : ℕ) (issued : Option A) (out out' : List (A × ℚ))
    (r : ℚ),
    ((issued = none ∧ out = []) ∨
      (∃ a, issued = some a ∧ out ≠ [] ∧ ∀ p ∈ out, p.1 = a)) →
    payoutLoopB newaddr none true maxout fuel na i issued out = some (out', r) →
    ∀ p ∈ out', p.1 = (match issued with | some a => a | none => newaddr i) := by
  intro fuel
  induction fuel with
  | zero =>
    intro na i issued out out' r hinv h
    by_cases h1 : 0 < na
    · simp [payoutLoopB, h1] at h
    · simp [payoutLoopB, h1] at h
      rw [← h.1]
      rcases hinv with ⟨_, hout⟩ | ⟨a, hiss, _, hkeys⟩
      · rw [hout]; intro p hp; simp at hp
      · rw [hiss]; exact hkeys
  | succ fuel ih =>
    intro na i issued out out' r hinv h
    by_cases h1 : 0 < na
    · have hpos := payoutB_amount_pos newaddr none true maxout fuel na i issued
        out (out', r) h1 h
      rw [payoutB_succ, if_pos h1, if_pos hpos] at h
      rcases hinv with ⟨hiss, hout⟩ | ⟨a, hiss, hne, hkeys⟩
      · subst hiss; subst hout
        have hd : chooseDest newaddr none true i none
            (List.isEmpty ([] : List (A × ℚ))) =
            (newaddr i, i + 1, some (newaddr i)) := rfl
        rw [hd] at h
        have hk2 : ∀ v : ℚ, ∀ p ∈ upsertAdd (newaddr i) v ([] : List (A × ℚ)),
            p.1 = newaddr i := by
          intro v p hp
          simp only [upsertAdd, List.mem_singleton] at hp
          rw [hp]
        exact ih _ _ _ _ _ _
          (Or.inr ⟨newaddr i, rfl, upsertAdd_ne_nil _ _ _, hk2 _⟩) h
      · subst hiss
        have hne2 : out.isEmpty = false := by
          cases out with
          | nil => exact absurd rfl hne
          | cons q rest => rfl
        have hd : chooseDest newaddr none true i (some a) out.isEmpty =
            (a, i, some a) := by
          rw [hne2]; rfl
        rw [hd] at h
        have hk2 : ∀ v : ℚ, ∀ p ∈ upsertAdd a v out, p.1 = a := by
          intro v p hp
          rcases mem_fst_upsertAdd _ _ _ p hp with h2 | h2
          · exact h2
          · obtain ⟨q, hq, hqe⟩ := List.mem_map.mp h2
            rw [← hqe]; exact hkeys q hq
        exact ih _ _ _ _ _ _
          (Or.inr ⟨a, rfl, upsertAdd_ne_nil _ _ _, hk2 _⟩) h
    · simp [payoutLoopB, h1] at h
      rw [← h.1]
      rcases hinv with ⟨_, hout⟩ | ⟨a, hiss, _, hkeys⟩
      · rw [hout]; intro p hp; simp at hp
      · rw [hiss]; exact hkeys

lemma payoutB_fresh {A : Type} [DecidableEq A] (newaddr : ℕ → A) (maxout : ℚ)
    (hinj : Function.Injective newaddr) :
    ∀ (fuel : ℕ) (na : ℚ) (i : ℕ) (issued : Option A) (out out' : List (A × ℚ))
    (r : ℚ),
    (∀ k ∈ out.map Prod.fst, ∃ j, j < i ∧ newaddr j = k) →
    payoutLoopB newaddr none false maxout fuel na i issued out = some (out', r) →
    ∃ n, out'.map Prod.fst = out.map Prod.fst ++ (List.range' i n).map newaddr := by
  intro fuel
  induction fuel with
  | zero =>
    intro na i issued out out' r hkeys h
    by_cases h1 : 0 < na
    · simp [payoutLoopB, h1] at h
    · simp [payoutLoopB, h1] at h
      exact ⟨0, by rw [← h.1]; simp⟩
  | succ fuel ih =>
    intro na i issued out out' r hkeys h
    by_cases h1 : 0 < na
    · have hpos := payoutB_amount_pos newaddr none false maxout fuel na i issued
        out (out', r) h1 h
      rw [payoutB_succ, if_pos h1, if_pos hpos] at h
      have hd : chooseDest newaddr none false i issued out.isEmpty =
          (newaddr i, i + 1, some (newaddr i)) := rfl
      rw [hd] at h
      have hfreshkey : ∀ p ∈ out, p.1 ≠ newaddr i := by
        intro p hp he
        obtain ⟨j, hj, hje⟩ := hkeys p.1 (List.mem_map_of_mem Prod.fst hp)
        exact absurd (hinj (hje.trans he)) (Nat.ne_of_lt hj)
      rw [upsertAdd_of_fresh _ _ out hfreshkey] at h
      have hk2 : ∀ (v : ℚ), ∀ k ∈ (out ++ [(newaddr i, v)]).map Prod.fst,
          ∃ j, j < i + 1 ∧ newaddr j = k := by
        intro v k hk
        rw [List.map_append, List.mem_append] at hk
        rcases hk with hk | hk
        · obtain ⟨j, hj, hje⟩ := hkeys k hk
          exact ⟨j, by omega, hje⟩
        · simp only [List.map_cons, List.map_nil, List.mem_singleton] at hk
          exact ⟨i, by omega, hk.symm⟩
      obtain ⟨n, hn⟩ := ih _ _ _ _ _ _ (hk2 _) h
      refine ⟨n + 1, ?_⟩
      rw [hn, List.map_append, List.range'_succ]
      simp
    · simp [payoutLoopB, h1] at h
      exact ⟨0, by rw [← h.1]; simp⟩

/-! ### Destructuring a produced plan -/

lemma planOnce_tx_elim {A : Type} [DecidableEq A] (maxin : ℚ) (maxN : ℕ)
    (maxout fee : ℚ) (newaddr : ℕ → A) (fuel : ℕ) (coins : List Coin)
    (txouts : List TxRef) (out : List (A × ℚ))
    (h : planOnce maxin maxN maxout fee newaddr fuel coins =
      some (PlanResult.tx txouts out)) :
    ∃ best agg r, mostOverused (buildScripts maxin coins) = some (best, agg) ∧
      ¬ (agg.2.2 < 3 ∨ agg.2.1 < (1 : ℚ)/100) ∧
      txouts = (gatherGo maxN (inUse (buildScripts maxin coins) best) coins 0 []).2 ∧
      payoutLoop newaddr maxout fuel
        ((gatherGo maxN (inUse (buildScripts maxin coins) best) coins 0 []).1 - fee)
        0 [] = some (out, r) := by
  cases hb : mostOverused (buildScripts maxin coins) with
  | none => simp [planOnce, hb] at h
  | some p =>
    obtain ⟨best, agg⟩ := p
    by_cases hgate : agg.2.2 < 3 ∨ agg.2.1 < (1 : ℚ)/100
    · simp only [planOnce, hb, if_pos hgate] at h
      exact absurd h (by simp)
    · simp only [planOnce, hb, if_neg hgate] at h
      cases hpay : payoutLoop newaddr maxout fuel
          ((gatherGo maxN (inUse (buildScripts maxin coins) best) coins 0 []).1 - fee)
          0 [] with
      | none => rw [hpay] at h; simp at h
      | some q =>
        obtain ⟨o, r⟩ := q
        rw [hpay] at h
        simp only [Option.some.injEq, PlanResult.tx.injEq] at h
        exact ⟨best, agg, r, rfl, hgate, h.1.symm, by rw [hpay, h.2]⟩

/-! ### The claims -/

/-- Claim C1, counterexample: a plan that passes the eligibility gate (three
qualifying 0.02 coins) but whose gathered amount 0.06 is below the default
fee 1 produces zero outputs, so the sum of selected input amounts minus the
fee (−0.94) does not equal the sum of planned output amounts (0). -/
theorem c1_balance_cex :
    planOnce 25 500 10000 1 (fun n => n) 1 coinsSmallFee =
      some (PlanResult.tx [⟨"t1", 0⟩, ⟨"t2", 0⟩, ⟨"t3", 0⟩]
        ([] : List (ℕ × ℚ))) ∧
    ¬ (sumValues ([] : List (ℕ × ℚ)) =
        (((coinsSmallFee.filter (fun c =>
          inUse (buildScripts 25 coinsSmallFee) "S" c.scriptPubKey)).take 500).map
          Coin.amount).sum - 1) := by
  constructor
  · norm_num [planOnce, buildScripts, buildScriptsGo, coinsSmallFee, assocGet,
      updateAssoc, updateAgg, qualifies, mostOverused, aggGt, inUse, gatherGo,
      payoutLoop, upsertAdd, Coin.toRef, min_def]
  · norm_num [sumValues, buildScripts, buildScriptsGo, coinsSmallFee, assocGet,
      updateAssoc, updateAgg, qualifies, inUse, List.filter_cons]

/-- Claim C1 (amended): for every plan the planner hands to transaction
creation, provided the gathered input sum is at least the fee, the sum of
planned output amounts equals the sum of the selected input amounts minus
the fee, exactly, in ℚ. -/
theorem c1_balance {A : Type} [DecidableEq A] (maxin : ℚ) (maxN : ℕ)
    (maxout fee : ℚ) (newaddr : ℕ → A) (fuel : ℕ) (coins : List Coin)
    (best : String) (agg : Agg) (txouts : List TxRef) (out : List (A × ℚ))
    (hbest : mostOverused (buildScripts maxin coins) = some (best, agg))
    (h : planOnce maxin maxN maxout fee newaddr fuel coins =
      some (PlanResult.tx txouts out))
    (hfee : fee ≤ (((coins.filter (fun c =>
        inUse (buildScripts maxin coins) best c.scriptPubKey)).take maxN).map
        Coin.amount).sum) :
    sumValues out =
      (((coins.filter (fun c =>
        inUse (buildScripts maxin coins) best c.scriptPubKey)).take maxN).map
        Coin.amount).sum - fee := by
  obtain ⟨b2, a2, r, hb2, hgate, htx, hpay⟩ :=
    planOnce_tx_elim maxin maxN maxout fee newaddr fuel coins txouts out h
  rw [hbest] at hb2
  simp only [Option.some.injEq, Prod.mk.injEq] at hb2
  obtain ⟨hbe, hae⟩ := hb2
  subst hbe
  subst hae
  have hamt : (gatherGo maxN (inUse (buildScripts maxin coins) best) coins 0 []).1 =
      (((coins.filter (fun c =>
        inUse (buildScripts maxin coins) best c.scriptPubKey)).take maxN).map
        Coin.amount).sum := by
    rw [gatherGo_spec]; simp
  rw [hamt] at hpay
  have hsum := payout_sum newaddr maxout fuel _ 0 [] out r hpay
  have hr := payout_exit newaddr maxout fuel _ 0 [] out r hpay (by linarith)
  rw [sumValues_nil, hr] at hsum
  rw [hsum]; ring

/-- Claim C1, witness: the specification §8 example — five qualifying 1.0
coins, fee 1 — yields a single output of 4 and the balance holds. -/
theorem c1_balance_witness :
    sumValues [((0 : ℕ), (4 : ℚ))] =
      (((coinsFive.filter (fun c =>
        inUse (buildScripts 25 coinsFive) "S" c.scriptPubKey)).take 500).map
        Coin.amount).sum - 1 :=
  c1_balance 25 500 10000 1 (fun n => n) 2 coinsFive "S" (5, 5, 5)
    [⟨"v1", 0⟩, ⟨"v2", 0⟩, ⟨"v3", 0⟩, ⟨"v4", 0⟩, ⟨"v5", 0⟩]
    [((0 : ℕ), (4 : ℚ))]
    (by
      have hb : buildScripts 25 coinsFive = [("S", ((5 : ℕ), (5 : ℚ), (5 : ℕ)))] := by
        norm_num [buildScripts, buildScriptsGo, coinsFive, assocGet, updateAssoc,
          updateAgg, qualifies]
      rw [hb]
      norm_num [mostOverused, aggGt])
    (by
      norm_num [planOnce, buildScripts, buildScriptsGo, coinsFive, assocGet,
        updateAssoc, updateAgg, qualifies, mostOverused, aggGt, inUse, gatherGo,
        payoutLoop, upsertAdd, Coin.toRef, min_def])
    (by
      norm_num [buildScripts, buildScriptsGo, coinsFive, assocGet, updateAssoc,
        updateAgg, qualifies, inUse, List.filter_cons])

/-- Claim C2: on a script with three same-script UTXOs none of which
qualifies, the code's aggregate is `(0, 3, 1)` — its third component is the
previous smallCount plus one, not the group's UTXO count — while the
aggregate the specification describes is `(0, 3, 3)`.  The code contradicts
its own log line, which prints the third component as the script's txin
count. -/
theorem c2_aggregate_eval :
    buildScripts 25 coinsThreeLarge = [("S", ((0 : ℕ), (3 : ℚ), (1 : ℕ)))] ∧
    specAggregate 25 coinsThreeLarge "S" = ((0 : ℕ), (3 : ℚ), (3 : ℕ)) := by
  constructor
  · norm_num [buildScripts, buildScriptsGo, coinsThreeLarge, assocGet,
      updateAssoc, updateAgg, qualifies]
  · norm_num [specAggregate, coinsThreeLarge, qualifies, List.filter_cons]

/-- Claim C5: with scripts "A" (spec aggregate `(1, 1, 3)`) and "B" (spec
aggregate `(1, 1, 2)`), the code selects "B" — because its stored third
components are the slipped values 1 and 2 — although "A"'s tuple
`(smallCount, totalAmount, totalCount)` is lexicographically greater. -/
theorem c5_selection_eval :
    mostOverused (buildScripts 25 coinsTwoScripts) =
      some ("B", ((1 : ℕ), (1 : ℚ), (2 : ℕ))) ∧
    specAggregate 25 coinsTwoScripts "A" = ((1 : ℕ), (1 : ℚ), (3 : ℕ)) ∧
    specAggregate 25 coinsTwoScripts "B" = ((1 : ℕ), (1 : ℚ), (2 : ℕ)) ∧
    aggGt ((1 : ℕ), (1 : ℚ), (3 : ℕ)) ((1 : ℕ), (1 : ℚ), (2 : ℕ)) = true := by
  refine ⟨?_, ?_, ?_, ?_⟩
  · have hb : buildScripts 25 coinsTwoScripts =
        [("A", ((1 : ℕ), (1 : ℚ), (1 : ℕ))), ("B", ((1 : ℕ), (1 : ℚ), (2 : ℕ)))] := by
      simp [buildScripts, buildScriptsGo, coinsTwoScripts, assocGet, updateAssoc,
        updateAgg, qualifies]
      norm_num
    rw [hb]
    norm_num [mostOverused, aggGt]
  · simp [specAggregate, coinsTwoScripts, qualifies, List.filter_cons]
    norm_num
  · simp [specAggregate, coinsTwoScripts, qualifies, List.filter_cons]
    norm_num
  · norm_num [aggGt]

/-- Claim C4: when the selected script's true UTXO count is below 3 or its
total amount is below 0.01, the planner reports the wallet clean and
proposes no inputs or outputs.  (This holds in spite of the third-component
slip, because the stored third component never exceeds the true count.) -/
theorem c4_gate {A : Type} [DecidableEq A] (maxin : ℚ) (maxN : ℕ)
    (maxout fee : ℚ) (newaddr : ℕ → A) (fuel : ℕ) (coins : List Coin)
    (best : String) (agg : Agg)
    (hbest : mostOverused (buildScripts maxin coins) = some (best, agg))
    (hsmall :
      (coins.filter (fun c => decide (c.scriptPubKey = best))).length < 3 ∨
      ((coins.filter (fun c => decide (c.scriptPubKey = best))).map
        Coin.amount).sum < (1 : ℚ)/100) :
    planOnce maxin maxN maxout fee newaddr fuel coins =
      some PlanResult.clean := by
  have hmemb : (best, agg) ∈ buildScripts maxin coins := mostOverused_mem _ _ hbest
  have hnd : ((buildScripts maxin coins).map Prod.fst).Nodup :=
    buildScriptsGo_keys_nodup maxin coins [] (by simp)
  have hget : assocGet best (buildScripts maxin coins) = some agg :=
    assocGet_of_mem_nodup best agg _ hmemb hnd
  rw [buildScripts, buildScriptsGo_assocGet] at hget
  simp only [assocGet] at hget
  by_cases hany : coins.any (fun c => decide (c.scriptPubKey = best))
  · rw [if_pos hany] at hget
    have hagg : agg = aggFold maxin (0, 0, 0)
        (coins.filter (fun c => decide (c.scriptPubKey = best))) := by
      simpa using hget.symm
    have hthird : agg.2.2 ≤
        (coins.filter (fun c => decide (c.scriptPubKey = best))).length := by
      rw [hagg]
      simpa using aggFold_third_le maxin
        (coins.filter (fun c => decide (c.scriptPubKey = best))) (0, 0, 0)
    have hsecond : agg.2.1 =
        ((coins.filter (fun c => decide (c.scriptPubKey = best))).map
          Coin.amount).sum := by
      rw [hagg]
      simpa using aggFold_second maxin
        (coins.filter (fun c => decide (c.scriptPubKey = best))) (0, 0, 0)
    have hgate : agg.2.2 < 3 ∨ agg.2.1 < (1 : ℚ)/100 := by
      rcases hsmall with h | h
      · left; omega
      · right; rw [hsecond]; exact h
    simp only [planOnce, hbest, if_pos hgate]
  · rw [if_neg hany] at hget
    exact absurd hget (by simp)

/-- Claim C4, witness: two qualifying 1.0 coins on one script — true count
2 < 3 — make the planner report the wallet clean. -/
theorem c4_gate_witness :
    planOnce 25 500 10000 1 (fun n => n) 2 coinsTwo = some PlanResult.clean :=
  c4_gate 25 500 10000 1 (fun n => n) 2 coinsTwo "S" (2, 2, 2)
    (by
      have hb : buildScripts 25 coinsTwo = [("S", ((2 : ℕ), (2 : ℚ), (2 : ℕ)))] := by
        norm_num [buildScripts, buildScriptsGo, coinsTwo, assocGet, updateAssoc,
          updateAgg, qualifies]
      rw [hb]
      norm_num [mostOverused])
    (Or.inl (by norm_num [coinsTwo, List.filter_cons]))

/-- Claim C3 (settled against the spec-modelled `payoutLoopB`): every output's
destination is the fixed address when one is supplied; otherwise, with reuse
enabled, every output goes to the single first-issued address; otherwise each
output goes to its own freshly issued address, in issuance order. -/
theorem c3_destinations {A : Type} [DecidableEq A] (newaddr : ℕ → A)
    (hinj : Function.Injective newaddr) (fixedAddr : Option A) (reuse : Bool)
    (maxout : ℚ) (fuel : ℕ) (na : ℚ) (out' : List (A × ℚ)) (r : ℚ)
    (h : payoutLoopB newaddr fixedAddr reuse maxout fuel na 0 none [] =
      some (out', r)) :
    (∀ a, fixedAddr = some a → ∀ p ∈ out', p.1 = a) ∧
    (fixedAddr = none → reuse = true → ∀ p ∈ out', p.1 = newaddr 0) ∧
    (fixedAddr = none → reuse = false →
      out'.map Prod.fst = (List.range out'.length).map newaddr) := by
  refine ⟨?_, ?_, ?_⟩
  · intro a ha
    subst ha
    exact payoutB_fixed newaddr a reuse maxout fuel na 0 none [] out' r
      (by intro p hp; simp at hp) h
  · intro hfix hre
    subst hfix; subst hre
    have := payoutB_reuse newaddr maxout fuel na 0 none [] out' r
      (Or.inl ⟨rfl, rfl⟩) h
    simpa using this
  · intro hfix hre
    subst hfix; subst hre
    obtain ⟨n, hn⟩ := payoutB_fresh newaddr maxout hinj fuel na 0 none [] out' r
      (by intro k hk; simp at hk) h
    have h2 : out'.map Prod.fst = (List.range' 0 n).map newaddr := by
      simpa using hn
    have hlen : out'.length = n := by
      have := congrArg List.length h2
      simpa using this
    rw [h2, hlen, List.range_eq_range']

/-- Claim C3, witness: with no fixed address and reuse off, a run splitting
25 into 10 and 15 sends each output to its own fresh address 0 then 1. -/
theorem c3_destinations_witness :
    (∀ a, (none : Option ℕ) = some a →
      ∀ p ∈ [((0 : ℕ), (10 : ℚ)), (1, 15)], p.1 = a) ∧
    ((none : Option ℕ) = none → false = true →
      ∀ p ∈ [((0 : ℕ), (10 : ℚ)), (1, 15)], p.1 = (fun n => n) 0) ∧
    ((none : Option ℕ) = none → false = false →
      ([((0 : ℕ), (10 : ℚ)), (1, 15)]).map Prod.fst =
        (List.range ([((0 : ℕ), (10 : ℚ)), (1, 15)]).length).map (fun n => n)) :=
  c3_destinations (fun n => n) (fun a b hab => hab) none false 10 3 25
    [(0, 10), (1, 15)] 0
    (by norm_num [payoutLoopB, chooseDest, upsertAdd, min_def])

/-- Claim C6: in every plan the planner produces, every output except the
last is at most `max_amt_per_output`; an output exceeding the cap can only
be the final one, and then only because the remainder beyond one max-sized
chunk was below 10. -/
theorem c6_output_cap {A : Type} [DecidableEq A] (maxin : ℚ) (maxN : ℕ)
    (maxout fee : ℚ) (newaddr : ℕ → A) (hinj : Function.Injective newaddr)
    (fuel : ℕ) (coins : List Coin) (txouts : List TxRef) (out : List (A × ℚ))
    (h : planOnce maxin maxN maxout fee newaddr fuel coins =
      some (PlanResult.tx txouts out)) :
    (∀ p ∈ out.dropLast, p.2 ≤ maxout) ∧
    (∀ p ∈ out, maxout < p.2 → out.getLast? = some p ∧ p.2 - maxout < 10) := by
  obtain ⟨best, agg, r, hb, hgate, htx, hpay⟩ :=
    planOnce_tx_elim maxin maxN maxout fee newaddr fuel coins txouts out h
  exact payout_caps newaddr maxout hinj fuel _ 0 [] out r
    (by intro k hk; simp at hk) (by intro p hp; simp at hp) hpay

/-- Claim C6, witness: the five-coin example yields the single output 4,
which does not exceed the cap 10000. -/
theorem c6_output_cap_witness :
    (∀ p ∈ ([((0 : ℕ), (4 : ℚ))]).dropLast, p.2 ≤ 10000) ∧
    (∀ p ∈ [((0 : ℕ), (4 : ℚ))], (10000 : ℚ) < p.2 →
      ([((0 : ℕ), (4 : ℚ))]).getLast? = some p ∧ p.2 - 10000 < 10) :=
  c6_output_cap 25 500 10000 1 (fun n => n) (fun a b hab => hab) 2 coinsFive
    [⟨"v1", 0⟩, ⟨"v2", 0⟩, ⟨"v3", 0⟩, ⟨"v4", 0⟩, ⟨"v5", 0⟩]
    [((0 : ℕ), (4 : ℚ))]
    (by
      norm_num [planOnce, buildScripts, buildScriptsGo, coinsFive, assocGet,
        updateAssoc, updateAgg, qualifies, mostOverused, aggGt, inUse, gatherGo,
        payoutLoop, upsertAdd, Coin.toRef, min_def])

/-- Claim C7: every script whose stored total amount is below 0.0001 is in
the `usescripts` selection set, whatever its other components, and the
selected script itself always is. -/
theorem c7_dust_included (maxin : ℚ) (coins : List Coin) (best s : String)
    (a : Agg) (hmemb : (s, a) ∈ buildScripts maxin coins)
    (hdust : a.2.1 < (1 : ℚ)/10000) :
    inUse (buildScripts maxin coins) best s = true ∧
    inUse (buildScripts maxin coins) best best = true := by
  refine ⟨?_, by simp [inUse]⟩
  have hany : (buildScripts maxin coins).any
      (fun p => decide (p.1 = s) && decide (p.2.2.1 < (1 : ℚ)/10000)) = true :=
    List.any_eq_true.mpr ⟨(s, a), hmemb, by
      simp only [Bool.and_eq_true, decide_eq_true_eq]
      exact ⟨trivial, hdust⟩⟩
  simp only [inUse, hany, Bool.or_true]

/-- Claim C7, witness: a lone pure-dust script (total 0.00005) is included
in the selection set even under an unrelated best script. -/
theorem c7_dust_included_witness :
    inUse (buildScripts 25 coinsDust) "X" "D" = true ∧
    inUse (buildScripts 25 coinsDust) "X" "X" = true :=
  c7_dust_included 25 coinsDust "X" "D" (0, 1/20000, 1)
    (by
      have hb : buildScripts 25 coinsDust =
          [("D", ((0 : ℕ), (1/20000 : ℚ), (1 : ℕ)))] := by
        norm_num [buildScripts, buildScriptsGo, coinsDust, assocGet, updateAssoc,
          updateAgg, qualifies]
      rw [hb]
      simp)
    (by norm_num)

/-- Claim C8: the gathered inputs are exactly the first `max_num_tx` coins,
in fetch order, whose script is selected; the accumulated amount is exactly
the sum of their amounts, and their number never exceeds `max_num_tx`. -/
theorem c8_gather (maxN : ℕ) (mem : String → Bool) (coins : List Coin) :
    gatherGo maxN mem coins 0 [] =
      ((((coins.filter (fun c => mem c.scriptPubKey)).take maxN).map
          Coin.amount).sum,
       ((coins.filter (fun c => mem c.scriptPubKey)).take maxN).map
          Coin.toRef) ∧
    (gatherGo maxN mem coins 0 []).2.length ≤ maxN := by
  have h := gatherGo_spec maxN mem coins 0 []
  constructor
  · rw [h]; simp
  · rw [h]
    simp only [List.nil_append, List.length_map, List.length_take]
    exact min_le_left _ _

/-- Claim C9: when the gathered amount does not exceed the fee, the payout
loop yields an empty destination mapping, while the gathered inputs stay in
the plan that is handed to transaction creation. -/
theorem c9_fee_exceeds {A : Type} [DecidableEq A] (maxin : ℚ) (maxN : ℕ)
    (maxout fee : ℚ) (newaddr : ℕ → A) (fuel : ℕ) (coins : List Coin)
    (best : String) (agg : Agg)
    (hbest : mostOverused (buildScripts maxin coins) = some (best, agg))
    (hgate : ¬ (agg.2.2 < 3 ∨ agg.2.1 < (1 : ℚ)/100))
    (hfee : (gatherGo maxN (inUse (buildScripts maxin coins) best)
      coins 0 []).1 ≤ fee) :
    planOnce maxin maxN maxout fee newaddr fuel coins =
      some (PlanResult.tx
        (gatherGo maxN (inUse (buildScripts maxin coins) best) coins 0 []).2
        ([] : List (A × ℚ))) := by
  simp only [planOnce, hbest, if_neg hgate]
  rw [payout_nonpos newaddr maxout fuel _ 0 [] (by linarith)]

/-- Claim C9, witness: the 0.06-total, fee-1 example keeps its three inputs
but pays out to an empty mapping. -/
theorem c9_fee_exceeds_witness :
    planOnce 25 500 10000 1 (fun n => n) 2 coinsSmallFee =
      some (PlanResult.tx
        (gatherGo 500 (inUse (buildScripts 25 coinsSmallFee) "S")
          coinsSmallFee 0 []).2 ([] : List (ℕ × ℚ))) :=
  c9_fee_exceeds 25 500 10000 1 (fun n => n) 2 coinsSmallFee "S" (3, 3/50, 3)
    (by
      have hb : buildScripts 25 coinsSmallFee =
          [("S", ((3 : ℕ), (3/50 : ℚ), (3 : ℕ)))] := by
        norm_num [buildScripts, buildScriptsGo, coinsSmallFee, assocGet,
          updateAssoc, updateAgg, qualifies]
      rw [hb]
      norm_num [mostOverused])
    (by norm_num)
    (by
      norm_num [gatherGo, inUse, buildScripts, buildScriptsGo, coinsSmallFee,
        assocGet, updateAssoc, updateAgg, qualifies, Coin.toRef])

/-- Claim C10, counterexample: with a strictly positive cap, from the
reachable starting value `remaining = amt − fee = −1` the loop exits
immediately with `remaining = −1`, not zero. -/
theorem c10_payout_cex :
    payoutLoop (fun n => n) 10000 1 (-1) 0 ([] : List (ℕ × ℚ)) =
      some ([], -1) ∧ ¬ ((-1 : ℚ) = 0) := by
  constructor
  · decide
  · decide

/-- Claim C10 (amended): provided `max_amt_per_output` is strictly positive
and the starting `remaining` is nonnegative, the payout loop terminates
(some fuel suffices), `remaining` stays nonnegative throughout the trace,
and every terminating run exits with `remaining` exactly zero. -/
theorem c10_payout_termination {A : Type} [DecidableEq A] (newaddr : ℕ → A)
    (maxout na : ℚ) (hm : 0 < maxout) (h0 : 0 ≤ na) :
    (∃ fuel out', payoutLoop newaddr maxout fuel na 0 [] = some (out', 0)) ∧
    (∀ fuel, ∀ v ∈ payoutTrace maxout fuel na, 0 ≤ v) ∧
    (∀ fuel out' r, payoutLoop newaddr maxout fuel na 0 [] = some (out', r) →
      r = 0) := by
  refine ⟨payout_terminates newaddr maxout na hm h0 0 [], ?_, ?_⟩
  · intro fuel v hv
    exact payoutTrace_nonneg maxout fuel na h0 v hv
  · intro fuel out' r h
    exact payout_exit newaddr maxout fuel na 0 [] out' r h h0

/-- Claim C10, witness: cap 10, starting remainder 25. -/
theorem c10_payout_witness :
    (∃ fuel out', payoutLoop (fun n => n) 10 fuel 25 0 [] = some (out', 0)) ∧
    (∀ fuel, ∀ v ∈ payoutTrace 10 fuel (25 : ℚ), 0 ≤ v) ∧
    (∀ fuel out' r,
      payoutLoop (fun n => n) 10 fuel 25 0 [] = some (out', r) → r = 0) :=
  c10_payout_termination (fun n => n) 10 25 (by norm_num) (by norm_num)

end MeowGroomer
